import Mathlib

/-!
Verification of the TSSP immutable-file subsystem of openGemini
(`engine/immutable/tssp_file.go`).

The development shallowly embeds the `tsspFile` wrapper logic:
  * the stop flag / reference counter / wait-group state machine
    (`Ref`, `Unref`, `Stop`, `Remove`, with the physical unlink and the
    memory-accounting bookkeeping made explicit in the state),
  * the per-method read surface, where each Go method that wraps the
    underlying `TSSPFileReader` is embedded as a function from the stop
    flag and the reader's would-be result to the method's result,
  * the `TSSPFiles` collection operations `fullCompacted`, `Less` and
    `fileIndex` (binary search by sequence plus path scan).

Go machine integers are modelled by `Int`/`Nat`; the reference counter and
stop flag stay far below the `int32`/`uint32` bounds in every scenario the
theorems quantify over, so wrap-around is not modelled.  Go's
multiple-return `(value, error)` idiom is modelled by the `Out` outcome
type (ok / error / panic).
-/

namespace TSSP

/-- Error values that appear on the `tsspFile` read/remove surface.
`fileClosed` is `errFileClosed = fmt.Errorf("tssp file closed")`;
`removeFail name inner` is `errRemoveFail(name, err)`;
`segmentOutOfRange seg cnt` is the `fmt.Errorf("segment index %d out of
range %d", segment, cm.segmentCount())` error; `osErr code` stands for an
arbitrary operating-system error distinct from the previous ones. -/
inductive GoErr : Type where
  | fileClosed : GoErr
  | removeFail : String → GoErr → GoErr
  | segmentOutOfRange : Int → Int → GoErr
  | osErr : Nat → GoErr
deriving DecidableEq, Repr

/-- Outcome of calling a Go method: a normal value, a non-nil error, or a
runtime panic. -/
inductive Out (α : Type) : Type where
  | ok : α → Out α
  | err : GoErr → Out α
  | panicked : Out α
deriving DecidableEq, Repr

/-! ## The read surface of `tsspFile`

Each method body in Go is `RLock; [if f.stopped() { return ..., errFileClosed };]
return f.reader.Method(...)`.  The embedding takes the stop flag
(`stopped : Bool`, the value of `atomic.LoadUint32(&f.flag) > 0`) and the
result the underlying reader call would produce (`rd : Out α`), and
returns the method's result.  Go methods returning several values plus an
error are modelled by their error component when the error is set and by
the value component otherwise. -/

/-- `tsspFile.MetaIndex`: stop check, then forward to `reader.MetaIndex`. -/
def tMetaIndex {α : Type} (stopped : Bool) (rd : Out α) : Out α :=
  if stopped then Out.err GoErr.fileClosed else rd

/-- `tsspFile.MetaIndexAt`: stop check, then forward to `reader.MetaIndexAt`. -/
def tMetaIndexAt {α : Type} (stopped : Bool) (rd : Out α) : Out α :=
  if stopped then Out.err GoErr.fileClosed else rd

/-- `tsspFile.ChunkMeta`: stop check, then forward to `reader.ChunkMeta`. -/
def tChunkMeta {α : Type} (stopped : Bool) (rd : Out α) : Out α :=
  if stopped then Out.err GoErr.fileClosed else rd

/-- `tsspFile.ChunkMetaAt`: stop check, then forward to `reader.ChunkMetaAt`. -/
def tChunkMetaAt {α : Type} (stopped : Bool) (rd : Out α) : Out α :=
  if stopped then Out.err GoErr.fileClosed else rd

/-- `tsspFile.ReadData`: stop check, then forward to `reader.ReadData`. -/
def tReadData {α : Type} (stopped : Bool) (rd : Out α) : Out α :=
  if stopped then Out.err GoErr.fileClosed else rd

/-- `tsspFile.ReadChunkMetaData`: stop check, then forward to
`reader.ReadChunkMetaData`. -/
def tReadChunkMetaData {α : Type} (stopped : Bool) (rd : Out α) : Out α :=
  if stopped then Out.err GoErr.fileClosed else rd

/-- `tsspFile.Contains`: stop check, then forward to `reader.Contains`. -/
def tContains (stopped : Bool) (rd : Out Bool) : Out Bool :=
  if stopped then Out.err GoErr.fileClosed else rd

/-- `tsspFile.ContainsValue`: stop check, then forward to
`reader.ContainsValue`. -/
def tContainsValue (stopped : Bool) (rd : Out Bool) : Out Bool :=
  if stopped then Out.err GoErr.fileClosed else rd

/-- `tsspFile.ContainsTime`: stop check, then forward to
`reader.ContainsTime`. -/
def tContainsTime (stopped : Bool) (rd : Out Bool) : Out Bool :=
  if stopped then Out.err GoErr.fileClosed else rd

/-- `tsspFile.MinMaxTime`: stop check, then forward to `reader.MinMaxTime`. -/
def tMinMaxTime (stopped : Bool) (rd : Out (Int × Int)) : Out (Int × Int) :=
  if stopped then Out.err GoErr.fileClosed else rd

/-- `tsspFile.ReadAt`: stop check, then bounds check of the segment index
against the chunk meta's `segmentCount()` (`segCount`, supplied by the
caller since `ChunkMeta` lives outside this file), then forward to
`reader.ReadAt`.  `segment < 0 || segment >= cm.segmentCount()` produces
the out-of-range error. -/
def tReadAt {α : Type} (stopped : Bool) (segCount : Int) (segment : Int)
    (rd : Out α) : Out α :=
  if stopped then Out.err GoErr.fileClosed
  else if segment < 0 ∨ segCount ≤ segment then
    Out.err (GoErr.segmentOutOfRange segment segCount)
  else rd

/-- `tsspFile.ReadMetaBlock`: forwards to `reader.ReadMetaBlock` with no
stop check. -/
def tReadMetaBlock {α : Type} (_stopped : Bool) (rd : Out α) : Out α :=
  rd

/-- `tsspFile.ReadDataBlock`: forwards to `reader.ReadDataBlock` with no
stop check. -/
def tReadDataBlock {α : Type} (_stopped : Bool) (rd : Out α) : Out α :=
  rd

/-- `tsspFile.BlockHeader`: forwards to `reader.BlockHeader` with no stop
check. -/
def tBlockHeader {α : Type} (_stopped : Bool) (rd : Out α) : Out α :=
  rd

/-- `tsspFile.Path`: `RLock; if f.stopped() { return "" }; return
f.reader.Path()`. -/
def tPath (stopped : Bool) (readerPath : String) : String :=
  if stopped then "" else readerPath

/-- `tsspFile.Name`: `RLock; if f.stopped() { return "" }; return
f.reader.Name()`. -/
def tName (stopped : Bool) (readerName : String) : String :=
  if stopped then "" else readerName

/-- `tsspFile.Read`: the body is `panic("impl me")` for every argument. -/
def tRead (_id : Nat) (_trMin _trMax : Int) : Out Nat :=
  Out.panicked

/-- `tsspFile.Delete`: the body is `panic("impl me")` for every argument. -/
def tDelete (_ids : List Int) : Out Unit :=
  Out.panicked

/-- `tsspFile.DeleteRange`: the body is `panic("impl me")` for every
argument. -/
def tDeleteRange (_ids : List Int) (_min _max : Int) : Out Unit :=
  Out.panicked

/-- `tsspFile.HasTombstones`: the body is `panic("impl me")`. -/
def tHasTombstones : Out Bool :=
  Out.panicked

/-- `tsspFile.TombstoneFiles`: the body is `panic("impl me")`. -/
def tTombstoneFiles : Out (List Nat) :=
  Out.panicked

/-! ## The `tsspFile` lifecycle state machine

`FileState` carries the mutable state of one `tsspFile` that the
lifecycle methods touch, together with the per-level memory counters the
file's bookkeeping updates (`addMemSize(levelName(level), ...)` with the
three columns total/order/unorder) and two instrumentation fields:
`unlinks` counts successful `fileops.Remove` unlinks of the underlying
file, and `panicked` records a `panic("file closed")` in `Unref`.
`ref` is the `int32` counter, `flag` the `uint32` stop flag, `wg` the
wait-group counter. -/
structure FileState : Type where
  ref : Int
  flag : Nat
  wg : Nat
  name : String
  memSize : Int
  order : Bool
  readerClosed : Bool
  onEvictList : Bool
  totalBytes : Int
  orderBytes : Int
  unorderBytes : Int
  unlinks : Nat
  panicked : Bool
deriving DecidableEq, Repr

/-- A freshly opened file (`OpenTSSPFile` returns `ref: 1`, flag clear)
with `memSize` cached bytes already accounted. -/
def initFile (nm : String) (memSize : Int) (order : Bool) : FileState :=
  { ref := 1, flag := 0, wg := 0, name := nm, memSize := memSize
    order := order, readerClosed := false, onEvictList := memSize > 0
    totalBytes := memSize, orderBytes := if order then memSize else 0
    unorderBytes := if order then 0 else memSize
    unlinks := 0, panicked := false }

/-- `tsspFile.stopped()`: `atomic.LoadUint32(&f.flag) > 0`. -/
def stoppedF (s : FileState) : Bool :=
  s.flag > 0

/-- `tsspFile.Ref()`: no-op when stopped; otherwise
`atomic.AddInt32(&f.ref, 1); f.wg.Add(1)`. -/
def refStep (s : FileState) : FileState :=
  if stoppedF s then s
  else { s with ref := s.ref + 1, wg := s.wg + 1 }

/-- `tsspFile.Unref()`: `atomic.AddInt32(&f.ref, -1)`; if the result is
`<= 0`, return silently when stopped and `panic("file closed")` otherwise;
if the result stays positive, `f.wg.Done()`. -/
def unrefStep (s : FileState) : FileState :=
  if s.ref - 1 ≤ 0 then
    if stoppedF s then { s with ref := s.ref - 1 }
    else { s with ref := s.ref - 1, panicked := true }
  else { s with ref := s.ref - 1, wg := s.wg - 1 }

/-- `tsspFile.Stop()`: `atomic.AddUint32(&f.flag, 1)`. -/
def stopStep (s : FileState) : FileState :=
  { s with flag := s.flag + 1 }

/-- The three-column per-level memory-counter update
`addMemSize(levelName(level), total, order, unorder)`. -/
def addMem (s : FileState) (total order unorder : Int) : FileState :=
  { s with totalBytes := s.totalBytes + total
           orderBytes := s.orderBytes + order
           unorderBytes := s.unorderBytes + unorder }

/-- Result of the `fileops.Remove(name, lock)` call inside
`tsspFile.Remove`: success, an `os.IsNotExist` error (the on-disk file
was already gone), or any other failure. -/
inductive UnlinkResult : Type where
  | ok : UnlinkResult
  | notExist : UnlinkResult
  | fail : GoErr → UnlinkResult
deriving DecidableEq, Repr

/-- The tail of `tsspFile.Remove` after a successful (or not-exist)
unlink: `evict := memSize > 0`; when evicting, decrement the memory
counters for the file's order class and leave the evict list. -/
def removeTail (s : FileState) : FileState :=
  if s.memSize > 0 then
    let s1 := if s.order then addMem s (-s.memSize) (-s.memSize) 0
              else addMem s (-s.memSize) 0 (-s.memSize)
    { s1 with onEvictList := false }
  else s

/-- `tsspFile.Remove()`: `atomic.AddUint32(&f.flag, 1)`, then
`atomic.AddInt32(&f.ref, -1)`; when the counter reaches exactly zero,
wait on the wait-group, close the reader, unlink the on-disk file under
the advisory lock (`u` is the unlink's result), propagate any unlink
error other than not-exist as `errRemoveFail`, and otherwise run the
memory/evict-list bookkeeping; when the counter does not reach zero,
return nil immediately. -/
def removeFn (s : FileState) (u : UnlinkResult) : FileState × Option GoErr :=
  let s1 : FileState := { s with flag := s.flag + 1 }
  let r : Int := s1.ref - 1
  let s2 : FileState := { s1 with ref := r }
  if r = 0 then
    let s3 : FileState := { s2 with readerClosed := true }
    match u with
    | UnlinkResult.fail e => (s3, some (GoErr.removeFail s3.name e))
    | UnlinkResult.ok =>
        (removeTail { s3 with unlinks := s3.unlinks + 1 }, none)
    | UnlinkResult.notExist => (removeTail s3, none)
  else (s2, none)

/-! ## Traces of `Ref` / `Unref` / `Remove`

For claim C1 the lifecycle calls are modelled as a sequence of atomic
operations applied to a `FileState` (every shared-memory access in the
three Go methods is an atomic read-modify-write, so an interleaving of
concurrent calls linearizes into such a sequence).  `Remove` is run with
a successful unlink (`UnlinkResult.ok`), so `unlinks` counts physical
unlinks of the underlying file.  After a panic the process is gone, so a
panicked state absorbs all further operations. -/
inductive Op : Type where
  | ref : Op
  | unref : Op
  | remove : Op
deriving DecidableEq, Repr

/-- One trace step: apply the corresponding `tsspFile` method. -/
def stepOp (s : FileState) : Op → FileState
  | Op.ref => refStep s
  | Op.unref => unrefStep s
  | Op.remove => (removeFn s UnlinkResult.ok).1

/-- A panicked state absorbs every later operation. -/
def stepP (s : FileState) (o : Op) : FileState :=
  if s.panicked then s else stepOp s o

/-- Run a trace of lifecycle operations from a state. -/
def runOps (s : FileState) (ops : List Op) : FileState :=
  ops.foldl stepP s

/-- Number of `Ref` calls in a trace. -/
def nRef : List Op → Nat
  | [] => 0
  | Op.ref :: t => nRef t + 1
  | _ :: t => nRef t

/-- Number of `Unref` calls in a trace. -/
def nUnref : List Op → Nat
  | [] => 0
  | Op.unref :: t => nUnref t + 1
  | _ :: t => nUnref t

/-- Number of `Remove` calls in a trace. -/
def nRemove : List Op → Nat
  | [] => 0
  | Op.remove :: t => nRemove t + 1
  | _ :: t => nRemove t

/-- Reader discipline: starting from `c` outstanding reader references,
every `Unref` in the trace releases a reference some earlier `Ref` (or
one of the `c` initial ones) took — no `Unref` consumes the owning set's
initial reference. -/
def balancedFrom : Nat → List Op → Bool
  | _, [] => true
  | c, Op.ref :: t => balancedFrom (c + 1) t
  | 0, Op.unref :: _ => false
  | c + 1, Op.unref :: t => balancedFrom c t
  | c, Op.remove :: t => balancedFrom c t

/-! ## The `TSSPFiles` collection

A member file is observed through `LevelAndSequence()`, `FileNameExtend()`
and `Path()`; `TFile` is that observation (a non-stopped file's name and
path).  The collection itself is the slice `files`. -/
structure TFile : Type where
  level : Nat
  seq : Nat
  extent : Nat
  path : String
deriving DecidableEq, Repr

/-- Placeholder used by the total `List.getD` indexing; every index the
functions touch is proved in bounds, so it never surfaces. -/
def dflFile : TFile :=
  { level := 0, seq := 0, extent := 0, path := "" }

/-- `TSSPFiles.fullCompacted`: true when the slice holds at most one
file; otherwise walk the remaining files and keep `sameLeve` while each
reports the same `(level, sequence)` as the first file, stopping at the
first mismatch. -/
def fullCompacted (files : List TFile) : Bool :=
  if files.length ≤ 1 then true
  else
    match files with
    | [] => true
    | f0 :: rest => rest.all fun g => f0.level == g.level && g.seq == f0.seq

/-- `TSSPFiles.Less`: primary key sequence ascending, tiebreaker extent
ascending. -/
def lessFn (a b : TFile) : Bool :=
  if a.seq != b.seq then decide (a.seq < b.seq) else decide (a.extent < b.extent)

/-- Sequence of the `i`-th slice member (`f.files[i].LevelAndSequence()`,
second component). -/
def seqD (fs : List TFile) (i : Nat) : Nat :=
  (fs.getD i dflFile).seq

/-- Path of the `i`-th slice member (`f.files[i].Path()`). -/
def pathD (fs : List TFile) (i : Nat) : String :=
  (fs.getD i dflFile).path

/-- The binary-search loop of `TSSPFiles.fileIndex`: while
`left < right`, probe `mid = (left+right)/2`; on an exact sequence match
break with `idx = mid`; on `seq < n` shrink to `[left, mid]`; otherwise
shrink to `[mid+1, right]`.  Returns the final `left` together with the
break index (`none` encodes Go's `idx == -1`). -/
def binSearch (fs : List TFile) (s : Nat) (left right : Nat) : Nat × Option Nat :=
  if h : left < right then
    let mid := (left + right) / 2
    let n := seqD fs mid
    if s = n then (left, some mid)
    else if s < n then binSearch fs s left mid
    else binSearch fs s (mid + 1) right
  else (left, none)
termination_by right - left
decreasing_by
  · have h1 : (left + right) / 2 < right :=
      (Nat.div_lt_iff_lt_mul (by norm_num)).mpr (by omega)
    have h2 : left ≤ (left + right) / 2 :=
      (Nat.le_div_iff_mul_le (by norm_num)).mpr (by omega)
    omega
  · have h1 : (left + right) / 2 < right :=
      (Nat.div_lt_iff_lt_mul (by norm_num)).mpr (by omega)
    have h2 : left ≤ (left + right) / 2 :=
      (Nat.le_div_iff_mul_le (by norm_num)).mpr (by omega)
    omega

/-- The downward scan of `fileIndex`: `for i := idx; i >= 0; i--`, break
on a sequence mismatch, return `i` on a path match. -/
def scanDown (fs : List TFile) (s : Nat) (p : String) (i : Nat) : Option Nat :=
  if seqD fs i ≠ s then none
  else if pathD fs i = p then some i
  else
    match i with
    | 0 => none
    | j + 1 => scanDown fs s p j

/-- The upward scan of `fileIndex`: `for i := idx + 1; i < f.Len(); i++`,
break on a sequence mismatch, return `i` on a path match. -/
def scanUp (fs : List TFile) (s : Nat) (p : String) (i : Nat) : Option Nat :=
  if _h : i < fs.length then
    if seqD fs i ≠ s then none
    else if pathD fs i = p then some i
    else scanUp fs s p (i + 1)
  else none
termination_by fs.length - i

/-- `TSSPFiles.fileIndex`: empty slice gives `-1`; otherwise binary
search by `tbl`'s sequence, scan the equal-sequence band around the
break index downward then upward matching by path, and finally compare
the path at the final `left` before giving up with `-1`. -/
def fileIndex (fs : List TFile) (tbl : TFile) : Int :=
  if fs.length = 0 then -1
  else
    match binSearch fs tbl.seq 0 (fs.length - 1) with
    | (left, some idx) =>
        match scanDown fs tbl.seq tbl.path idx with
        | some i => (i : Int)
        | none =>
            match scanUp fs tbl.seq tbl.path (idx + 1) with
            | some i => (i : Int)
            | none => if pathD fs left = tbl.path then (left : Int) else -1
    | (left, none) => if pathD fs left = tbl.path then (left : Int) else -1

/-- C5: when `Remove` drops the final reference (`ref = 1` on entry) and
the unlink fails because the on-disk file does not exist, `Remove`
returns success and performs exactly the bookkeeping of a successful
unlink (reader closed, memory counters decremented and evict-list entry
dropped when `memSize > 0`) — the resulting state differs from the
successful-unlink state only in the unlink instrumentation counter; any
other unlink failure is propagated as `errRemoveFail`. -/
theorem remove_notExist_succeeds (s : FileState) (h : s.ref = 1) :
    (removeFn s UnlinkResult.notExist).2 = none ∧
    (removeFn s UnlinkResult.notExist).1.readerClosed = true ∧
    (removeFn s UnlinkResult.notExist).1 =
      { (removeFn s UnlinkResult.ok).1 with unlinks := s.unlinks } ∧
    ∀ e : GoErr,
      (removeFn s (UnlinkResult.fail e)).2 = some (GoErr.removeFail s.name e) := by
  have hr : s.ref - 1 = 0 := by omega
  by_cases hm : (0 : Int) < s.memSize <;> by_cases ho : s.order = true <;>
    refine ⟨?_, ?_, ?_, fun e => ?_⟩ <;>
    simp [removeFn, hr, removeTail, addMem, hm, ho]

/-- C5 witness: a fresh file holding 4096 cached bytes whose `Remove`
hits a not-exist unlink error returns success, closes the reader and
completes the bookkeeping; an unlink failing with `osErr 5` propagates. -/
theorem remove_notExist_succeeds_witness :
    (removeFn (initFile "f1" 4096 true) UnlinkResult.notExist).2 = none ∧
    (removeFn (initFile "f1" 4096 true) UnlinkResult.notExist).1.readerClosed = true ∧
    (removeFn (initFile "f1" 4096 true) UnlinkResult.notExist).1 =
      { (removeFn (initFile "f1" 4096 true) UnlinkResult.ok).1 with
          unlinks := (initFile "f1" 4096 true).unlinks } ∧
    ∀ e : GoErr,
      (removeFn (initFile "f1" 4096 true) (UnlinkResult.fail e)).2 =
        some (GoErr.removeFail (initFile "f1" 4096 true).name e) :=
  remove_notExist_succeeds (initFile "f1" 4096 true) (by decide)

/-- C6: on a file that is not stopped, an `Unref` that brings the
reference counter to zero or below sets off the `panic("file closed")`
trap (and still records the decrement) instead of silently continuing. -/
theorem unref_underflow_panics (s : FileState) (h0 : s.flag = 0)
    (h1 : s.ref - 1 ≤ 0) :
    (unrefStep s).panicked = true ∧ (unrefStep s).ref = s.ref - 1 := by
  have hs : stoppedF s = false := by simp [stoppedF, h0]
  constructor <;> simp [unrefStep, h1, hs]

/-- C6 witness: un-reffing a fresh non-stopped file with `ref = 1`
panics. -/
theorem unref_underflow_panics_witness :
    (unrefStep (initFile "f2" 0 true)).panicked = true ∧
    (unrefStep (initFile "f2" 0 true)).ref = (initFile "f2" 0 true).ref - 1 :=
  unref_underflow_panics (initFile "f2" 0 true) (by decide) (by decide)

/-- C7: `Ref()` on a stopped file returns without changing anything (in
particular neither the reference counter nor the wait-group moves); on a
non-stopped file it increments the atomic counter by one and adds one to
the wait-group, leaving every other field unchanged. -/
theorem ref_noop_when_stopped (s : FileState) :
    (s.flag > 0 → refStep s = s) ∧
    (s.flag = 0 → refStep s = { s with ref := s.ref + 1, wg := s.wg + 1 }) := by
  constructor
  · intro h
    simp [refStep, stoppedF, h]
  · intro h
    simp [refStep, stoppedF, h]

/-- C7 witness: `Ref` after `Stop` on a fresh file changes nothing;
`Ref` on the fresh file itself bumps `ref` and `wg` by one. -/
theorem ref_noop_when_stopped_witness :
    refStep (stopStep (initFile "f3" 0 true)) = stopStep (initFile "f3" 0 true) ∧
    refStep (initFile "f3" 0 true) =
      { initFile "f3" 0 true with
          ref := (initFile "f3" 0 true).ref + 1
          wg := (initFile "f3" 0 true).wg + 1 } :=
  ⟨(ref_noop_when_stopped (stopStep (initFile "f3" 0 true))).1 (by decide),
   (ref_noop_when_stopped (initFile "f3" 0 true)).2 (by decide)⟩

/-- Running a trace of balanced `Ref`/`Unref` calls on a non-stopped
file tracks the reference counter exactly, never panics, never unlinks
and leaves the stop flag clear. -/
theorem runOps_balanced (a : List Op) : ∀ (c : Nat) (s : FileState),
    nRemove a = 0 → balancedFrom c a = true →
    s.ref = 1 + (c : Int) → s.flag = 0 → s.panicked = false →
    (runOps s a).ref = 1 + (c : Int) + (nRef a : Int) - (nUnref a : Int) ∧
    (runOps s a).flag = 0 ∧ (runOps s a).panicked = false ∧
    (runOps s a).unlinks = s.unlinks ∧ nUnref a ≤ c + nRef a := by
  induction a with
  | nil =>
      intro c s _ _ hr hf hp
      refine ⟨?_, ?_, ?_, ?_, ?_⟩ <;> simp [runOps, nRef, nUnref, hr, hf, hp]
  | cons o t ih =>
      intro c s h0 hbal hr hf hp
      have hstep : runOps s (o :: t) = runOps (stepP s o) t := by
        simp [runOps]
      cases o with
      | ref =>
          have hs : stepP s Op.ref = { s with ref := s.ref + 1, wg := s.wg + 1 } := by
            simp [stepP, hp, stepOp, refStep, stoppedF, hf]
          have hrec := ih (c + 1) (stepP s Op.ref)
            (by simpa [nRemove] using h0)
            (by simpa [balancedFrom] using hbal)
            (by rw [hs]; push_cast; omega)
            (by rw [hs]; exact hf) (by rw [hs]; exact hp)
          rw [hstep]
          refine ⟨?_, hrec.2.1, hrec.2.2.1, ?_, ?_⟩
          · rw [hrec.1]; simp [nRef, nUnref]; ring
          · rw [hrec.2.2.2.1, hs]
          · have := hrec.2.2.2.2
            simp only [nRef, nUnref]
            omega
      | unref =>
          match c, hbal with
          | 0, hbal => simp [balancedFrom] at hbal
          | c + 1, hbal =>
            have hgt : ¬ s.ref - 1 ≤ 0 := by omega
            have hs : stepP s Op.unref = { s with ref := s.ref - 1, wg := s.wg - 1 } := by
              simp [stepP, hp, stepOp, unrefStep, hgt]
            have hrec := ih c (stepP s Op.unref)
              (by simpa [nRemove] using h0)
              (by simpa [balancedFrom] using hbal)
              (by rw [hs]; push_cast; omega)
              (by rw [hs]; exact hf) (by rw [hs]; exact hp)
            rw [hstep]
            refine ⟨?_, hrec.2.1, hrec.2.2.1, ?_, ?_⟩
            · rw [hrec.1]; simp [nRef, nUnref]; ring
            · rw [hrec.2.2.2.1, hs]
            · have := hrec.2.2.2.2
              simp only [nRef, nUnref]
              omega
      | remove =>
          simp [nRemove] at h0

/-- Once the stop flag is set, further `Ref`/`Unref` calls never unlink,
never panic and never clear the flag. -/
theorem runOps_after_stop (b : List Op) : ∀ s : FileState,
    nRemove b = 0 → s.flag > 0 → s.panicked = false →
    (runOps s b).unlinks = s.unlinks ∧ (runOps s b).panicked = false ∧
    (runOps s b).flag = s.flag := by
  induction b with
  | nil =>
      intro s _ _ hp
      simp [runOps, hp]
  | cons o t ih =>
      intro s h0 hf hp
      have hstep : runOps s (o :: t) = runOps (stepP s o) t := by
        simp [runOps]
      cases o with
      | ref =>
          have hs : stepP s Op.ref = s := by
            simp [stepP, hp, stepOp, refStep, stoppedF, hf]
          rw [hstep, hs]
          exact ih s (by simpa [nRemove] using h0) hf hp
      | unref =>
          by_cases hle : s.ref - 1 ≤ 0
          · have hst : stoppedF s = true := by simp [stoppedF]; omega
            have hs : stepP s Op.unref = { s with ref := s.ref - 1 } := by
              simp [stepP, hp, stepOp, unrefStep, hle, hst]
            rw [hstep, hs]
            exact ih _ (by simpa [nRemove] using h0) (by simpa using hf)
              (by simpa using hp)
          · have hs : stepP s Op.unref = { s with ref := s.ref - 1, wg := s.wg - 1 } := by
              simp [stepP, hp, stepOp, unrefStep, hle]
            rw [hstep, hs]
            exact ih _ (by simpa [nRemove] using h0) (by simpa using hf)
              (by simpa using hp)
      | remove =>
          simp [nRemove] at h0

/-- Field bookkeeping of one `Remove` call: the stop flag is always
bumped, a panic never originates here, and the unlink counter moves
exactly when the decrement reaches zero and the OS unlink succeeds. -/
theorem removeFn_fields (s : FileState) (u : UnlinkResult) :
    ((removeFn s u).1).flag = s.flag + 1 ∧
    ((removeFn s u).1).panicked = s.panicked ∧
    ((removeFn s u).1).unlinks =
      (if s.ref - 1 = 0 ∧ u = UnlinkResult.ok then s.unlinks + 1 else s.unlinks) := by
  cases u <;> by_cases hz : s.ref - 1 = 0 <;>
    by_cases hm : (0 : Int) < s.memSize <;> by_cases ho : s.order = true <;>
    simp [removeFn, removeTail, addMem, hz, hm, ho]

/-- C1 counterexample.  The claim says that for every interleaving of
`Ref`/`Unref` with one `Remove` the unlink happens exactly once, at the
moment the reference counter drops to zero.  On the trace
`[Ref, Remove, Unref]` (a reader takes a reference, `Remove` runs while
the reader is active, the reader releases), the counter drops to zero at
the final `Unref`, yet the underlying file is never unlinked: `Unref`
contains no unlink path, and `Remove` only unlinks when its own decrement
reaches zero. -/
theorem remove_while_in_use_never_unlinks_cex :
    (runOps (initFile "c" 0 true) [Op.ref, Op.remove, Op.unref]).ref = 0 ∧
    (runOps (initFile "c" 0 true) [Op.ref, Op.remove, Op.unref]).unlinks = 0 ∧
    (runOps (initFile "c" 0 true) [Op.ref, Op.remove, Op.unref]).panicked = false := by
  refine ⟨?_, ?_, ?_⟩ <;> decide

/-- C1 (amended): for every trace of `Ref`/`Unref` calls around exactly
one `Remove`, starting from a file whose only reference is the owning
set's (`ref = 1`, not stopped), where the `Unref` calls before the
`Remove` are balanced by earlier `Ref` calls, the process never panics,
the unlink can only happen at the `Remove` step itself, and the file is
unlinked (exactly once) if and only if no reader reference is
outstanding when `Remove` runs — i.e. the `Ref` calls before the
`Remove` are exactly matched by `Unref` calls before it.  In particular
`Remove` does not unlink while a reader still holds a reference, and in
that case the unlink never happens at all. -/
theorem remove_unlinks_iff_no_outstanding_refs (s : FileState) (a b : List Op)
    (hs1 : s.ref = 1) (hs2 : s.flag = 0) (hs3 : s.panicked = false)
    (ha : nRemove a = 0) (hb : nRemove b = 0)
    (hbal : balancedFrom 0 a = true) :
    (runOps s (a ++ Op.remove :: b)).panicked = false ∧
    (runOps s (a ++ Op.remove :: b)).unlinks =
      (runOps s (a ++ [Op.remove])).unlinks ∧
    (runOps s (a ++ Op.remove :: b)).unlinks =
      (if nRef a = nUnref a then s.unlinks + 1 else s.unlinks) := by
  have hA := runOps_balanced a 0 s ha hbal (by omega) hs2 hs3
  set sA := runOps s a with hsA
  have hAref : sA.ref = 1 + (nRef a : Int) - (nUnref a : Int) := by
    rw [hA.1]; ring
  have hrm : ∀ u : FileState, u.ref = 1 + (nRef a : Int) - (nUnref a : Int) →
      u.flag = 0 → u.panicked = false → u.unlinks = s.unlinks →
      (stepP u Op.remove).flag > 0 ∧ (stepP u Op.remove).panicked = false ∧
      (stepP u Op.remove).unlinks =
        (if nRef a = nUnref a then s.unlinks + 1 else s.unlinks) := by
    intro u hur huf hup huu
    have hUle : nUnref a ≤ nRef a := by
      have := hA.2.2.2.2
      omega
    have hsp : stepP u Op.remove = (removeFn u UnlinkResult.ok).1 := by
      simp [stepP, hup, stepOp]
    have hflds := removeFn_fields u UnlinkResult.ok
    refine ⟨?_, ?_, ?_⟩
    · rw [hsp, hflds.1]
      omega
    · rw [hsp, hflds.2.1, hup]
    · rw [hsp, hflds.2.2, huu]
      by_cases heq : nRef a = nUnref a
      · have hz : u.ref - 1 = 0 := by rw [hur, heq]; ring
        simp [hz, heq]
      · have hz : ¬ u.ref - 1 = 0 := by
          rw [hur]
          intro hcon
          apply heq
          omega
        simp [hz, heq]
  have hmain := hrm sA hAref hA.2.1 hA.2.2.1 hA.2.2.2.1
  have hsplit : runOps s (a ++ Op.remove :: b) = runOps (stepP sA Op.remove) b := by
    simp [runOps, List.foldl_append, hsA]
  have hsplit1 : runOps s (a ++ [Op.remove]) = stepP sA Op.remove := by
    simp [runOps, List.foldl_append, hsA]
  have hB := runOps_after_stop b (stepP sA Op.remove) hb hmain.1 hmain.2.1
  rw [hsplit, hsplit1]
  exact ⟨hB.2.1, hB.1, by rw [hB.1, hmain.2.2]⟩

/-- C1 witness: on the trace `[Ref, Unref]` before the `Remove` (reader
finished before removal) the file is unlinked exactly once. -/
theorem remove_unlinks_iff_no_outstanding_refs_witness :
    (runOps (initFile "w" 0 true)
        ([Op.ref, Op.unref] ++ Op.remove :: [])).panicked = false ∧
    (runOps (initFile "w" 0 true) ([Op.ref, Op.unref] ++ Op.remove :: [])).unlinks =
      (runOps (initFile "w" 0 true) ([Op.ref, Op.unref] ++ [Op.remove])).unlinks ∧
    (runOps (initFile "w" 0 true) ([Op.ref, Op.unref] ++ Op.remove :: [])).unlinks =
      (if nRef [Op.ref, Op.unref] = nUnref [Op.ref, Op.unref] then
        (initFile "w" 0 true).unlinks + 1 else (initFile "w" 0 true).unlinks) :=
  remove_unlinks_iff_no_outstanding_refs (initFile "w" 0 true)
    [Op.ref, Op.unref] [] (by decide) (by decide) (by decide) (by decide)
    (by decide) (by decide)

/-- C2 counterexample: with the stop flag set, `ReadDataBlock`,
`ReadMetaBlock` and `BlockHeader` forward the reader's result instead of
returning the `FileClosed` error, refuting the claim that every listed
read operation returns `FileClosed` after stop.  Concrete input: stop flag
set, reader result `ok 7`. -/
theorem stopped_forwarding_reads_cex :
    tReadDataBlock true (Out.ok (7 : Nat)) = Out.ok 7 ∧
    tReadMetaBlock true (Out.ok (7 : Nat)) = Out.ok 7 ∧
    tBlockHeader true (Out.ok (7 : Nat)) = Out.ok 7 ∧
    tReadDataBlock true (Out.ok (7 : Nat)) ≠ Out.err GoErr.fileClosed ∧
    tReadMetaBlock true (Out.ok (7 : Nat)) ≠ Out.err GoErr.fileClosed ∧
    tBlockHeader true (Out.ok (7 : Nat)) ≠ Out.err GoErr.fileClosed := by
  refine ⟨rfl, rfl, rfl, ?_, ?_, ?_⟩ <;> decide

/-- C2 (amended): once the stop flag is set, the read operations
`MetaIndex`, `MetaIndexAt`, `ChunkMeta`, `ChunkMetaAt`, `ReadData`,
`ReadChunkMetaData`, `ReadAt`, `Contains`, `ContainsValue`,
`ContainsTime` and `MinMaxTime` all return the `FileClosed` error
whatever the reader would have produced, while `ReadMetaBlock`,
`ReadDataBlock` and `BlockHeader` forward the reader's result
unconditionally. -/
theorem stopped_reads_fileClosed {α : Type} (rd : Out α) (rb : Out Bool)
    (rt : Out (Int × Int)) (segCount segment : Int) :
    tMetaIndex true rd = Out.err GoErr.fileClosed ∧
    tMetaIndexAt true rd = Out.err GoErr.fileClosed ∧
    tChunkMeta true rd = Out.err GoErr.fileClosed ∧
    tChunkMetaAt true rd = Out.err GoErr.fileClosed ∧
    tReadData true rd = Out.err GoErr.fileClosed ∧
    tReadChunkMetaData true rd = Out.err GoErr.fileClosed ∧
    tReadAt true segCount segment rd = Out.err GoErr.fileClosed ∧
    tContains true rb = Out.err GoErr.fileClosed ∧
    tContainsValue true rb = Out.err GoErr.fileClosed ∧
    tContainsTime true rb = Out.err GoErr.fileClosed ∧
    tMinMaxTime true rt = Out.err GoErr.fileClosed ∧
    tReadMetaBlock true rd = rd ∧
    tReadDataBlock true rd = rd ∧
    tBlockHeader true rd = rd := by
  refine ⟨rfl, rfl, rfl, rfl, rfl, rfl, rfl, rfl, rfl, rfl, rfl, rfl, rfl, rfl⟩

/-- C8: on a non-stopped file, `ReadAt` with a segment index that is
negative or not below the chunk's segment count returns the bounded
out-of-range error (so it neither panics nor forwards to the reader),
and with an in-range segment index it forwards the reader's result. -/
theorem readAt_segment_bounds {α : Type} (segCount segment : Int) (rd : Out α) :
    (segment < 0 ∨ segCount ≤ segment →
      tReadAt false segCount segment rd =
        Out.err (GoErr.segmentOutOfRange segment segCount)) ∧
    (0 ≤ segment → segment < segCount → tReadAt false segCount segment rd = rd) := by
  constructor
  · intro h
    simp [tReadAt, h]
  · intro h0 h1
    have : ¬ (segment < 0 ∨ segCount ≤ segment) := by omega
    simp [tReadAt, this]

/-- C8 witness: `ReadAt` on a non-stopped file with segment count 2
returns the out-of-range error at segment index 5 and forwards the
reader's result at segment index 1. -/
theorem readAt_segment_bounds_witness :
    tReadAt false 2 5 (Out.ok (0 : Nat)) =
      Out.err (GoErr.segmentOutOfRange 5 2) ∧
    tReadAt false 2 1 (Out.ok (0 : Nat)) = Out.ok 0 :=
  ⟨(readAt_segment_bounds 2 5 (Out.ok 0)).1 (Or.inr (by decide)),
   (readAt_segment_bounds 2 1 (Out.ok 0)).2 (by decide) (by decide)⟩

/-- C9: the declared-but-unimplemented operations `Read`, `Delete`,
`DeleteRange`, `HasTombstones` and `TombstoneFiles` panic for every
argument instead of returning a value or an error. -/
theorem unimplemented_ops_panic :
    (∀ (id : Nat) (trMin trMax : Int), tRead id trMin trMax = Out.panicked) ∧
    (∀ ids : List Int, tDelete ids = Out.panicked) ∧
    (∀ (ids : List Int) (mn mx : Int), tDeleteRange ids mn mx = Out.panicked) ∧
    tHasTombstones = Out.panicked ∧
    tTombstoneFiles = Out.panicked := by
  exact ⟨fun _ _ _ => rfl, fun _ => rfl, fun _ _ _ => rfl, rfl, rfl⟩

/-- C10: once the stop flag is set, `Path()` and `Name()` return the
empty string whatever the reader's path and name are (and they cannot
return an error: their result type is a plain string); on a non-stopped
file they forward the reader's path and name. -/
theorem stopped_path_name_empty (p n : String) :
    tPath true p = "" ∧ tName true n = "" ∧
    tPath false p = p ∧ tName false n = n := by
  exact ⟨rfl, rfl, rfl, rfl⟩

/-- C3: `fullCompacted` returns true exactly when the collection holds
at most one file, or every member reports the same `(level, sequence)`
pair as the first member. -/
theorem fullCompacted_iff (files : List TFile) :
    fullCompacted files = true ↔
      (files.length ≤ 1 ∨
        ∃ f0, files.head? = some f0 ∧
          ∀ g ∈ files, g.level = f0.level ∧ g.seq = f0.seq) := by
  cases files with
  | nil => simp [fullCompacted]
  | cons f0 rest =>
      cases rest with
      | nil => simp [fullCompacted]
      | cons f1 rest1 =>
          have hlen : ¬ (f0 :: f1 :: rest1).length ≤ 1 := by
            simp [List.length]
          constructor
          · intro h
            have hall : ∀ g ∈ f1 :: rest1, f0.level = g.level ∧ g.seq = f0.seq := by
              simpa [fullCompacted, hlen, List.all_eq_true, Bool.and_eq_true,
                beq_iff_eq] using h
            refine Or.inr ⟨f0, rfl, ?_⟩
            intro g hg
            rcases List.mem_cons.mp hg with hg0 | hgr
            · subst hg0
              exact ⟨rfl, rfl⟩
            · exact ⟨(hall g hgr).1.symm, (hall g hgr).2⟩
          · intro h
            rcases h with hlen1 | ⟨f1x, hf1, hallx⟩
            · exact absurd hlen1 hlen
            · obtain rfl : f0 = f1x := by injection hf1
              simp only [fullCompacted, hlen, if_false]
              refine List.all_eq_true.mpr ?_
              intro g hg
              have hx := hallx g (List.mem_cons_of_mem _ hg)
              simp [Bool.and_eq_true, beq_iff_eq, hx.1.symm, hx.2]

/-- Unfolding `seqD` at an in-bounds index. -/
theorem seqD_eq (fs : List TFile) (i : Nat) (h : i < fs.length) :
    seqD fs i = (fs.get ⟨i, h⟩).seq := by
  rw [seqD, List.getD_eq_getElem _ _ h]
  rfl

/-- Unfolding `pathD` at an in-bounds index. -/
theorem pathD_eq (fs : List TFile) (i : Nat) (h : i < fs.length) :
    pathD fs i = (fs.get ⟨i, h⟩).path := by
  rw [pathD, List.getD_eq_getElem _ _ h]
  rfl

/-- An in-bounds `getD` access yields a member of the slice. -/
theorem getD_mem (fs : List TFile) (i : Nat) (h : i < fs.length) :
    fs.getD i dflFile ∈ fs := by
  rw [List.getD_eq_getElem _ _ h]
  exact List.getElem_mem h

/-- A slice sorted by `Less` (no inversion `Less(j, i)` for `i < j`) has
non-decreasing sequences. -/
theorem seqD_mono (fs : List TFile)
    (hs : fs.Pairwise fun a b => lessFn b a = false) :
    ∀ i j, i ≤ j → j < fs.length → seqD fs i ≤ seqD fs j := by
  intro i j hij hj
  rcases Nat.eq_or_lt_of_le hij with rfl | hlt
  · exact le_rfl
  · have hi : i < fs.length := by omega
    have hp := List.pairwise_iff_get.mp hs ⟨i, hi⟩ ⟨j, hj⟩ hlt
    simp only [lessFn] at hp
    rw [seqD_eq fs i hi, seqD_eq fs j hj]
    by_cases hne : (fs.get ⟨j, hj⟩).seq = (fs.get ⟨i, hi⟩).seq
    · omega
    · simp only [bne_iff_ne, ne_eq, hne, not_false_eq_true, if_true,
        decide_eq_false_iff_not, Nat.not_lt] at hp
      omega

/-- Unique paths make the index of a given path unique. -/
theorem pathD_inj (fs : List TFile)
    (hp : fs.Pairwise fun a b => a.path ≠ b.path) :
    ∀ i j, i < fs.length → j < fs.length → pathD fs i = pathD fs j → i = j := by
  intro i j hi hj he
  rw [pathD_eq fs i hi, pathD_eq fs j hj] at he
  by_contra hne
  rcases Nat.lt_or_ge i j with h | h
  · exact List.pairwise_iff_get.mp hp ⟨i, hi⟩ ⟨j, hj⟩ h he
  · have h2 : j < i := by omega
    exact List.pairwise_iff_get.mp hp ⟨j, hj⟩ ⟨i, hi⟩ h2 he.symm

/-- Invariant of the binary-search loop of `fileIndex` on a slice with
non-decreasing sequences: if it breaks with an index, that index holds
the probed sequence; if it exits with `left == right`, everything below
the final `left` has a smaller sequence and everything above a larger
one. -/
theorem binSearch_spec (fs : List TFile) (s : Nat)
    (hmono : ∀ i j, i ≤ j → j < fs.length → seqD fs i ≤ seqD fs j) :
    ∀ (d left right : Nat), right - left ≤ d → left ≤ right →
      right < fs.length →
      (∀ i, i < left → seqD fs i < s) →
      (∀ i, right < i → i < fs.length → s < seqD fs i) →
      (match binSearch fs s left right with
       | (l, some idx) => l < fs.length ∧ idx < fs.length ∧ seqD fs idx = s
       | (l, none) => l < fs.length ∧ (∀ i, i < l → seqD fs i < s) ∧
           ∀ i, l < i → i < fs.length → s < seqD fs i) := by
  intro d
  induction d with
  | zero =>
      intro left right hd hlr hrlen hL hR
      have hnlt : ¬ left < right := by omega
      rw [binSearch]
      simp only [hnlt, dite_false]
      exact ⟨by omega, hL, fun i hi hilen => hR i (by omega) hilen⟩
  | succ d ih =>
      intro left right hd hlr hrlen hL hR
      rw [binSearch]
      by_cases h : left < right
      · simp only [h, dite_true]
        have hmlt : (left + right) / 2 < right :=
          (Nat.div_lt_iff_lt_mul (by norm_num)).mpr (by omega)
        have hmge : left ≤ (left + right) / 2 :=
          (Nat.le_div_iff_mul_le (by norm_num)).mpr (by omega)
        by_cases he : s = seqD fs ((left + right) / 2)
        · rw [if_pos he]
          exact ⟨by omega, by omega, he.symm⟩
        · rw [if_neg he]
          by_cases hlt : s < seqD fs ((left + right) / 2)
          · rw [if_pos hlt]
            refine ih left ((left + right) / 2) (by omega) hmge (by omega) hL ?_
            intro i hmi hilen
            rcases Nat.lt_or_ge right i with hri | hri
            · exact hR i hri hilen
            · have := hmono ((left + right) / 2) i (by omega) hilen
              omega
          · rw [if_neg hlt]
            have hgt : seqD fs ((left + right) / 2) < s := by omega
            refine ih ((left + right) / 2 + 1) right (by omega) (by omega)
              hrlen ?_ hR
            intro i hi
            have := hmono i ((left + right) / 2) (by omega) (by omega)
            omega
      · simp only [h, dite_false]
        exact ⟨by omega, hL, fun i hi hilen => hR i (by omega) hilen⟩

/-- If the downward scan returns an index, that index is below the start,
in the sequence band, and matches the path. -/
theorem scanDown_sound (fs : List TFile) (s : Nat) (p : String) :
    ∀ i j, scanDown fs s p i = some j →
      j ≤ i ∧ seqD fs j = s ∧ pathD fs j = p := by
  intro i
  induction i with
  | zero =>
      intro j h
      rw [scanDown] at h
      by_cases h1 : seqD fs 0 ≠ s
      · simp [h1] at h
      · by_cases h2 : pathD fs 0 = p
        · simp [h1, h2] at h
          obtain rfl : j = 0 := by omega
          exact ⟨le_rfl, not_not.mp h1, h2⟩
        · simp [h1, h2] at h
  | succ i ih =>
      intro j h
      rw [scanDown] at h
      by_cases h1 : seqD fs (i + 1) ≠ s
      · simp [h1] at h
      · by_cases h2 : pathD fs (i + 1) = p
        · simp [h1, h2] at h
          obtain rfl : j = i + 1 := by omega
          exact ⟨le_rfl, not_not.mp h1, h2⟩
        · simp only [h1, if_false, h2] at h
          have := ih j h
          exact ⟨by omega, this.2.1, this.2.2⟩

/-- If some index `k` at or below the start matches the path and the
sequence band stretches from `k` up to the start, the downward scan
succeeds. -/
theorem scanDown_finds (fs : List TFile) (s : Nat) (p : String) :
    ∀ i k, k ≤ i → pathD fs k = p →
      (∀ m, k ≤ m → m ≤ i → seqD fs m = s) →
      (scanDown fs s p i).isSome = true := by
  intro i
  induction i with
  | zero =>
      intro k hk hp hband
      obtain rfl : k = 0 := by omega
      have hs0 : seqD fs 0 = s := hband 0 le_rfl le_rfl
      rw [scanDown]
      simp [hs0, hp]
  | succ i ih =>
      intro k hk hp hband
      have hsi : seqD fs (i + 1) = s := hband (i + 1) hk le_rfl
      rw [scanDown]
      by_cases h2 : pathD fs (i + 1) = p
      · simp [hsi, h2]
      · have hki : k ≤ i := by
          rcases Nat.lt_or_ge k (i + 1) with h | h
          · omega
          · exfalso
            apply h2
            have hk1 : k = i + 1 := by omega
            rw [← hk1]
            exact hp
        have := ih k hki hp fun m hm1 hm2 => hband m hm1 (by omega)
        simp only [hsi, ne_eq, not_true_eq_false, if_false, h2]
        exact this

/-- If the upward scan returns an index, that index is at or above the
start, in bounds, in the sequence band, and matches the path. -/
theorem scanUp_sound (fs : List TFile) (s : Nat) (p : String) :
    ∀ d i j, fs.length - i ≤ d → scanUp fs s p i = some j →
      i ≤ j ∧ j < fs.length ∧ seqD fs j = s ∧ pathD fs j = p := by
  intro d
  induction d with
  | zero =>
      intro i j hd h
      rw [scanUp] at h
      have hnlt : ¬ i < fs.length := by omega
      simp [hnlt] at h
  | succ d ih =>
      intro i j hd h
      rw [scanUp] at h
      by_cases hlen : i < fs.length
      · simp only [hlen, dite_true] at h
        by_cases h1 : seqD fs i ≠ s
        · simp [h1] at h
        · by_cases h2 : pathD fs i = p
          · simp [h1, h2] at h
            obtain rfl : j = i := by omega
            exact ⟨le_rfl, hlen, not_not.mp h1, h2⟩
          · simp only [h1, if_false, h2] at h
            have := ih (i + 1) j (by omega) h
            exact ⟨by omega, this.2.1, this.2.2.1, this.2.2.2⟩
      · simp [hlen] at h

/-- If some in-bounds index `k` at or above the start matches the path
and the sequence band stretches from the start up to `k`, the upward
scan succeeds. -/
theorem scanUp_finds (fs : List TFile) (s : Nat) (p : String) :
    ∀ d i k, fs.length - i ≤ d → i ≤ k → k < fs.length →
      pathD fs k = p → (∀ m, i ≤ m → m ≤ k → seqD fs m = s) →
      (scanUp fs s p i).isSome = true := by
  intro d
  induction d with
  | zero =>
      intro i k hd hik hk hp hband
      omega
  | succ d ih =>
      intro i k hd hik hk hp hband
      have hilen : i < fs.length := by omega
      have hsi : seqD fs i = s := hband i le_rfl hik
      rw [scanUp]
      by_cases h2 : pathD fs i = p
      · simp [hilen, hsi, h2]
      · have hik2 : i + 1 ≤ k := by
          rcases Nat.eq_or_lt_of_le hik with rfl | h
          · exact absurd hp h2
          · omega
        have := ih (i + 1) k (by omega) hik2 hk hp
          fun m hm1 hm2 => hband m (by omega) hm2
        simp only [hilen, dite_true, hsi, ne_eq, not_true_eq_false, if_false, h2]
        exact this

/-- C4: on a collection sorted by the `Less` order with pairwise
distinct paths, `fileIndex` returns `k` whenever `tbl` is the member at
position `k`, and returns `-1` whenever no member carries `tbl`'s
path. -/
theorem fileIndex_locates (fs : List TFile) (tbl : TFile)
    (hsorted : fs.Pairwise fun a b => lessFn b a = false)
    (hpaths : fs.Pairwise fun a b => a.path ≠ b.path) :
    (∀ k, (hk : k < fs.length) → fs.get ⟨k, hk⟩ = tbl →
      fileIndex fs tbl = (k : Int)) ∧
    ((∀ g ∈ fs, g.path ≠ tbl.path) → fileIndex fs tbl = -1) := by
  have hmono := seqD_mono fs hsorted
  have hinj := pathD_inj fs hpaths
  constructor
  · intro k hk hkeq
    have hlen0 : ¬ fs.length = 0 := by omega
    have hseqk : seqD fs k = tbl.seq := by
      rw [seqD_eq fs k hk, hkeq]
    have hpathk : pathD fs k = tbl.path := by
      rw [pathD_eq fs k hk, hkeq]
    have hspec := binSearch_spec fs tbl.seq hmono (fs.length - 1) 0
      (fs.length - 1) le_rfl (by omega) (by omega)
      (fun i hi => absurd hi (Nat.not_lt_zero i))
      (fun i h1 h2 => by omega)
    rw [fileIndex]
    simp only [hlen0, if_false]
    rcases hres : binSearch fs tbl.seq 0 (fs.length - 1) with ⟨left, idxOpt⟩
    rw [hres] at hspec
    cases idxOpt with
    | some idx =>
        obtain ⟨hleft, hidx, hseqidx⟩ := hspec
        by_cases hcmp : k ≤ idx
        · have hband : ∀ m, k ≤ m → m ≤ idx → seqD fs m = tbl.seq := by
            intro m hm1 hm2
            have h1 := hmono k m hm1 (by omega)
            have h2 := hmono m idx hm2 hidx
            omega
          have hfind := scanDown_finds fs tbl.seq tbl.path idx k hcmp hpathk hband
          rcases hsd : scanDown fs tbl.seq tbl.path idx with _ | j
          · rw [hsd] at hfind
            simp at hfind
          · have hsound := scanDown_sound fs tbl.seq tbl.path idx j hsd
            have hjk : j = k :=
              hinj j k (by omega) hk (by rw [hsound.2.2, hpathk])
            simp [hsd, hjk]
        · push_neg at hcmp
          have hsdnone : scanDown fs tbl.seq tbl.path idx = none := by
            rcases hsd : scanDown fs tbl.seq tbl.path idx with _ | j
            · rfl
            · have hsound := scanDown_sound fs tbl.seq tbl.path idx j hsd
              have hjk : j = k :=
                hinj j k (by omega) hk (by rw [hsound.2.2, hpathk])
              omega
          have hband : ∀ m, idx + 1 ≤ m → m ≤ k → seqD fs m = tbl.seq := by
            intro m hm1 hm2
            have h1 := hmono idx m (by omega) (by omega)
            have h2 := hmono m k hm2 hk
            omega
          have hfind := scanUp_finds fs tbl.seq tbl.path fs.length (idx + 1) k
            (by omega) hcmp hk hpathk hband
          rcases hsu : scanUp fs tbl.seq tbl.path (idx + 1) with _ | j
          · rw [hsu] at hfind
            simp at hfind
          · have hsound := scanUp_sound fs tbl.seq tbl.path fs.length (idx + 1) j
              (by omega) hsu
            have hjk : j = k :=
              hinj j k hsound.2.1 hk (by rw [hsound.2.2.2, hpathk])
            simp [hsdnone, hsu, hjk]
    | none =>
        obtain ⟨hleft, hLL, hRR⟩ := hspec
        have hkl : k = left := by
          by_contra hne
          rcases Nat.lt_or_ge k left with h | h
          · have := hLL k h
            omega
          · have hgt : left < k := by omega
            have := hRR k hgt hk
            omega
        subst hkl
        simp [hpathk]
  · intro habs
    by_cases hlen0 : fs.length = 0
    · simp [fileIndex, hlen0]
    · have habs2 : ∀ i, i < fs.length → ¬ pathD fs i = tbl.path := by
        intro i hi
        have hmem := getD_mem fs i hi
        exact habs _ hmem
      have hspec := binSearch_spec fs tbl.seq hmono (fs.length - 1) 0
        (fs.length - 1) le_rfl (by omega) (by omega)
        (fun i hi => absurd hi (Nat.not_lt_zero i))
        (fun i h1 h2 => by omega)
      rw [fileIndex]
      simp only [hlen0, if_false]
      rcases hres : binSearch fs tbl.seq 0 (fs.length - 1) with ⟨left, idxOpt⟩
      rw [hres] at hspec
      cases idxOpt with
      | some idx =>
          obtain ⟨hleft, hidx, hseqidx⟩ := hspec
          have hsdnone : scanDown fs tbl.seq tbl.path idx = none := by
            rcases hsd : scanDown fs tbl.seq tbl.path idx with _ | j
            · rfl
            · have hsound := scanDown_sound fs tbl.seq tbl.path idx j hsd
              exact absurd hsound.2.2 (habs2 j (by omega))
          have hsunone : scanUp fs tbl.seq tbl.path (idx + 1) = none := by
            rcases hsu : scanUp fs tbl.seq tbl.path (idx + 1) with _ | j
            · rfl
            · have hsound := scanUp_sound fs tbl.seq tbl.path fs.length
                (idx + 1) j (by omega) hsu
              exact absurd hsound.2.2.2 (habs2 j hsound.2.1)
          simp [hsdnone, hsunone, habs2 left hleft]
      | none =>
          obtain ⟨hleft, hLL, hRR⟩ := hspec
          simp [habs2 left hleft]

/-- C4 witness: on the sorted five-member collection below, `fileIndex`
locates the member `(seq 1, extent 1)` at position 1 and the member
`(seq 5, extent 1)` at position 4, and returns `-1` for a file whose
path is absent. -/
theorem fileIndex_locates_witness :
    fileIndex [⟨0, 1, 0, "a"⟩, ⟨0, 1, 1, "b"⟩, ⟨0, 2, 0, "c"⟩,
        ⟨1, 5, 0, "d"⟩, ⟨1, 5, 1, "e"⟩] ⟨0, 1, 1, "b"⟩ = 1 ∧
    fileIndex [⟨0, 1, 0, "a"⟩, ⟨0, 1, 1, "b"⟩, ⟨0, 2, 0, "c"⟩,
        ⟨1, 5, 0, "d"⟩, ⟨1, 5, 1, "e"⟩] ⟨1, 5, 1, "e"⟩ = 4 ∧
    fileIndex [⟨0, 1, 0, "a"⟩, ⟨0, 1, 1, "b"⟩, ⟨0, 2, 0, "c"⟩,
        ⟨1, 5, 0, "d"⟩, ⟨1, 5, 1, "e"⟩] ⟨0, 2, 0, "z"⟩ = -1 :=
  ⟨(fileIndex_locates _ _ (by decide) (by decide)).1 1 (by decide) rfl,
   (fileIndex_locates _ _ (by decide) (by decide)).1 4 (by decide) rfl,
   (fileIndex_locates _ _ (by decide) (by decide)).2 (by decide)⟩

end TSSP
